import Mathlib

/-!
A verification development for the tag-reconciliation engine of `tagit`
(package `pkg/tagit`, file `tagit.go`).  The pure core — tag
classification, `diffTags`, `needsTag`, `parseScriptOutput`,
`copyServiceToRegistration` — is embedded directly; the effectful
collaborators (the Consul agent and the external probe process) are
modelled by explicit environments whose fields record the answers the
collaborator would give, so that every function of the source becomes a
total Lean function over that environment.
-/

namespace Tagit

/-! ### Byte-wise string order (model of Go `slices.Sort` on `[]string`)

Go compares strings byte-wise; UTF-8 byte order coincides with code-point
order, so the lexicographic order on `String.data` is the order
`slices.Sort` uses.  Mathlib's `String` order does not reduce in the
kernel, so we define our own decidable lexicographic comparison. -/

/-- Lexicographic `≤` on lists of characters, by code point. -/
def charsLe : List Char → List Char → Bool
  | [], _ => true
  | _ :: _, [] => false
  | a :: as, b :: bs => if a < b then true else if a = b then charsLe as bs else false

/-- Byte-wise `≤` on strings, the comparison Go's `slices.Sort` uses. -/
def strLe (a b : String) : Bool := charsLe a.data b.data

/-- `strLe` as a relation, for `List.insertionSort`. -/
def StrLe (a b : String) : Prop := strLe a b = true

/-- Strict version of `StrLe`, used to state that a sorted deduplicated
list has no duplicates. -/
def StrLt (a b : String) : Prop := StrLe a b ∧ a ≠ b

instance : DecidableRel StrLe := fun a b => instDecidableEqBool (strLe a b) true

theorem charsLe_total (as bs : List Char) : charsLe as bs = true ∨ charsLe bs as = true := by
  induction as generalizing bs with
  | nil => left; rfl
  | cons a as ih =>
    cases bs with
    | nil => right; rfl
    | cons b bs =>
      rcases lt_trichotomy a b with h | h | h
      · left; simp [charsLe, h]
      · subst h
        rcases ih bs with h' | h' <;> simp [charsLe, h', lt_irrefl]
      · right; simp [charsLe, h]

theorem charsLe_trans {as bs cs : List Char} (h₁ : charsLe as bs = true)
    (h₂ : charsLe bs cs = true) : charsLe as cs = true := by
  induction as generalizing bs cs with
  | nil => rfl
  | cons a as ih =>
    cases bs with
    | nil => simp [charsLe] at h₁
    | cons b bs =>
      cases cs with
      | nil => simp [charsLe] at h₂
      | cons c cs =>
        simp only [charsLe] at h₁ h₂ ⊢
        rcases lt_trichotomy a b with hab | hab | hab
        · rcases lt_trichotomy b c with hbc | hbc | hbc
          · simp [lt_trans hab hbc]
          · subst hbc; simp [hab]
          · simp [not_lt_of_gt hbc, ne_of_gt hbc] at h₂
        · subst hab
          simp only [lt_irrefl, if_false, if_pos rfl] at h₁
          rcases lt_trichotomy a c with hac | hac | hac
          · simp [hac]
          · subst hac
            simp only [lt_irrefl, if_false, if_pos rfl] at h₂ ⊢
            exact ih h₁ h₂
          · simp [not_lt_of_gt hac, ne_of_gt hac] at h₂
        · simp [not_lt_of_gt hab, ne_of_gt hab] at h₁

theorem charsLe_antisymm {as bs : List Char} (h₁ : charsLe as bs = true)
    (h₂ : charsLe bs as = true) : as = bs := by
  induction as generalizing bs with
  | nil =>
    cases bs with
    | nil => rfl
    | cons b bs => simp [charsLe] at h₂
  | cons a as ih =>
    cases bs with
    | nil => simp [charsLe] at h₁
    | cons b bs =>
      simp only [charsLe] at h₁ h₂
      by_cases hab : a < b
      · simp [not_lt_of_gt hab, ne_of_gt hab] at h₂
      · simp only [hab, if_false] at h₁
        by_cases hab' : a = b
        · subst hab'
          simp [lt_irrefl] at h₁ h₂
          rw [ih h₁ h₂]
        · simp [hab'] at h₁

instance : IsTotal String StrLe :=
  ⟨fun a b => charsLe_total a.data b.data⟩

instance : IsTrans String StrLe :=
  ⟨fun _ _ _ h₁ h₂ => charsLe_trans h₁ h₂⟩

instance : IsAntisymm String StrLe :=
  ⟨fun _ _ h₁ h₂ => String.ext (charsLe_antisymm h₁ h₂)⟩

instance : IsIrrefl String StrLt := ⟨fun _ h => h.2 rfl⟩

/-! ### Models of the Go standard-library helpers the source calls -/

/-- `strings.HasPrefix(s, pre)`: byte-wise prefix test. -/
def goHasPrefix (pre s : String) : Bool := pre.data.isPrefixOf s.data

/-- `slices.Sort` on `[]string` (any correct sort of a list under a linear
order yields the same list, so insertion sort is a faithful model). -/
def goSort (l : List String) : List String := l.insertionSort StrLe

/-- Helper for `goCompact`: `prev` is the last element kept. -/
def goCompactAux (prev : String) : List String → List String
  | [] => []
  | b :: l => if b = prev then goCompactAux prev l else b :: goCompactAux b l

/-- `slices.Compact`: collapse each run of consecutive equal elements to a
single copy. -/
def goCompact : List String → List String
  | [] => []
  | a :: l => a :: goCompactAux a l

/-- The character class of Go's `unicode.IsSpace` (the Latin-1 clause; the
claims only exercise ASCII input). -/
def goIsSpace (c : Char) : Bool :=
  c = ' ' || c = '\t' || c = '\n' || c = '\u000B' || c = '\u000C' || c = '\r' ||
    c = '\u0085' || c = '\u00A0'

/-- `strings.Fields`: split on runs of whitespace, producing no empty
tokens. -/
def goFields (s : String) : List String :=
  ((s.data.splitOnP goIsSpace).filter (fun l => l ≠ [])).map String.mk

/-! ### The data model (`api.AgentService` / `api.AgentServiceRegistration`)

Only the fields the source reads or writes are modelled.  `Meta` is a Go
`map[string]string`, copied by reference by the source; its contents are
opaque to the algorithm, so an association list is a faithful model. -/

structure AgentWeights where
  passing : Int
  warning : Int
deriving DecidableEq

structure AgentService where
  id : String
  service : String
  tags : List String
  port : Int
  address : String
  kind : String
  meta : List (String × String)
  weights : AgentWeights
deriving DecidableEq

structure AgentServiceRegistration where
  id : String
  name : String
  tags : List String
  port : Int
  address : String
  kind : String
  meta : List (String × String)
  weights : AgentWeights
deriving DecidableEq

/-! ### The `TagIt` struct and its pure methods -/

/-- The configuration fields of the `TagIt` struct (the client, executor
and logger are effectful collaborators, modelled separately). -/
structure TagIt where
  serviceID : String
  script : String
  tagPrefix : String

/-- `diffTags`: symmetric difference of two tag lists viewed as sets.  The
source materialises both lists as Go map-backed sets and walks the maps,
whose iteration order is unspecified; only membership and emptiness of the
result are ever used (`needsTag` checks `len(diff) == 0`), so we fix the
order as update-side elements first. -/
def TagIt.diffTags (_t : TagIt) (current update : List String) : List String :=
  (update.dedup.filter (fun tag => tag ∉ current)) ++
    (current.dedup.filter (fun tag => tag ∉ update))

/-- The tags of `tags` that satisfy
`strings.HasPrefix(tag, t.TagPrefix+"-")` — the managed ones.  The source
builds this list and `foreignTags` in a single loop over `tags`
(`needsTag`'s `currentPrefixed`/`currentNonPrefixed`). -/
def TagIt.managedTags (t : TagIt) (tags : List String) : List String :=
  tags.filter (fun tag => goHasPrefix (t.tagPrefix ++ "-") tag)

/-- The tags of `tags` that fail the managed-prefix test — the foreign
ones (`needsTag`'s `currentNonPrefixed`, `CleanupTags`' `cleanedTags`). -/
def TagIt.foreignTags (t : TagIt) (tags : List String) : List String :=
  tags.filter (fun tag => !goHasPrefix (t.tagPrefix ++ "-") tag)

/-- `needsTag`: partition `current` by the `"<prefix>-"` pattern, compare
the prefixed part with `update`; on any difference, return the
deduplicated sorted union of the non-prefixed part and `update`. -/
def TagIt.needsTag (t : TagIt) (current update : List String) : List String × Bool :=
  let currentPrefixed := t.managedTags current
  let currentNonPrefixed := t.foreignTags current
  let diff := t.diffTags currentPrefixed update
  if diff.length = 0 then ([], false)
  else (goCompact (goSort (currentNonPrefixed ++ update)), true)

/-- `parseScriptOutput`: tokenize the raw probe output on whitespace and
prefix every token (`fmt.Sprintf("%s-%s", t.TagPrefix, tag)`). -/
def TagIt.parseScriptOutput (t : TagIt) (output : String) : List String :=
  (goFields output).map (fun tag => t.tagPrefix ++ "-" ++ tag)

/-- `copyServiceToRegistration`: copy an `api.AgentService` into a fresh
`api.AgentServiceRegistration`, field by field. -/
def TagIt.copyServiceToRegistration (_t : TagIt) (service : AgentService) :
    AgentServiceRegistration :=
  { id := service.id
    name := service.service
    tags := service.tags
    port := service.port
    address := service.address
    kind := service.kind
    meta := service.meta
    weights := { passing := service.weights.passing, warning := service.weights.warning } }

/-! ### The effectful layer

The Consul agent and the probe executor are collaborators behind
interfaces (`consul.Client`, `CommandExecutor`).  One reconciliation pass
consults each of them at most once, so a pass is a pure function of an
environment recording the answers they would give. -/

/-- Which stage of a pass produced an error (the source wraps the cause
in a distinct `fmt.Errorf` message per stage). -/
inductive PassError where
  | fetch (msg : String)
  | probe (msg : String)
  | register (msg : String)
deriving DecidableEq

/-- The observable outcome of one reconciliation pass: the payload handed
to `Agent().ServiceRegister`, if that call was made, and the returned
error, if any. -/
structure PassResult where
  registered : Option AgentServiceRegistration
  err : Option PassError
deriving DecidableEq

/-- The answers the collaborators give during one pass:
`serviceResp` is `Agent().Service(id, nil)` (transport error, nil, or a
service), `execResult` is `commandExecutor.Execute(script)`, and
`registerResult` is `Agent().ServiceRegister` (`none` = success). -/
structure ConsulEnv where
  serviceResp : Except String (Option AgentService)
  execResult : Except String String
  registerResult : AgentServiceRegistration → Option String

/-- `getService`: look up the registered service; a nil answer becomes a
"service not found" error. -/
def TagIt.getService (t : TagIt) (env : ConsulEnv) : Except String AgentService :=
  match env.serviceResp with
  | .error e => .error ("error getting service " ++ t.serviceID ++ ": " ++ e)
  | .ok none => .error ("service " ++ t.serviceID ++ " not found")
  | .ok (some service) => .ok service

/-- `runScript`: delegate to the command executor (the log line has no
observable effect on the result). -/
def TagIt.runScript (_t : TagIt) (env : ConsulEnv) : Except String String :=
  env.execResult

/-- `generateNewTags`: run the script and parse its output into tags. -/
def TagIt.generateNewTags (t : TagIt) (env : ConsulEnv) : Except String (List String) :=
  match t.runScript env with
  | .error e => .error ("error running script: " ++ e)
  | .ok out => .ok (t.parseScriptOutput out)

/-- `updateConsulService`: copy the fetched service into a registration,
ask `needsTag` whether a write is due, and if so re-register with the
updated tag list. -/
def TagIt.updateConsulService (t : TagIt) (env : ConsulEnv) (service : AgentService)
    (newTags : List String) : PassResult :=
  let registration := t.copyServiceToRegistration service
  let answer := t.needsTag registration.tags newTags
  if answer.2 then
    let reg := { registration with tags := answer.1 }
    match env.registerResult reg with
    | some e => { registered := some reg, err := some (.register e) }
    | none => { registered := some reg, err := none }
  else { registered := none, err := none }

/-- `updateServiceTags`: one full reconciliation pass —
fetch, probe, then (maybe) write. -/
def TagIt.updateServiceTags (t : TagIt) (env : ConsulEnv) : PassResult :=
  match t.getService env with
  | .error e => { registered := none, err := some (.fetch e) }
  | .ok service =>
    match t.generateNewTags env with
    | .error e => { registered := none, err := some (.probe e) }
    | .ok newTags => t.updateConsulService env service newTags

/-- `CleanupTags`: fetch the service, drop every `"<prefix>-"` tag, and
hand the remaining tags to `updateConsulService`. -/
def TagIt.cleanupTags (t : TagIt) (env : ConsulEnv) : PassResult :=
  match t.getService env with
  | .error e => { registered := none, err := some (.fetch e) }
  | .ok service =>
    let cleanedTags := t.foreignTags service.tags
    t.updateConsulService env service cleanedTags

/-! ### The polling loop (`Run`)

`Run` blocks on `select { case <-ctx.Done(): return; case <-ticker.C: … }`;
the sequence of outcomes of that `select` is modelled as a list of events.
A `tick` event carries the result the pass (`updateServiceTags`) produced
on that tick. -/

/-- One wake-up of the `Run` loop: either the cancellation signal fired,
or the ticker fired and the pass finished with the recorded result. -/
inductive TickEvent where
  | cancel
  | tick (err : Option PassError)
deriving DecidableEq

/-- The pass result a tick event carries. -/
def TickEvent.outcome : TickEvent → Option PassError
  | .cancel => none
  | .tick e => e

/-- The `Run` loop: each tick executes one pass and the loop continues
whatever the pass returned (an error is only logged); the loop returns at
the first cancellation.  The trace lists, in order, the result of every
pass that was executed. -/
def runLoop : List TickEvent → List (Option PassError)
  | [] => []
  | TickEvent.cancel :: _ => []
  | TickEvent.tick e :: rest => e :: runLoop rest

/-! ### The command executor (`CmdExecutor.Execute`)

`shlex.Split` and the spawned child process are external; the environment
records the split result, the wall-clock duration the command would take,
and its output.  `elapsed` strictly above the effective timeout models
`ctx.Err() == context.DeadlineExceeded` after `Output()` returns. -/

/-- `DefaultScriptTimeout = 30 * time.Second`, in seconds. -/
def DefaultScriptTimeout : Nat := 30

/-- The `CmdExecutor` struct; `timeout = 0` means unset. -/
structure CmdExecutor where
  timeout : Nat
deriving DecidableEq

/-- The external world `Execute` consults: the shell-word splitter and
the child process. -/
structure ExecEnv where
  split : String → Except String (List String)
  elapsed : List String → Nat
  run : List String → Except String String

/-- Outcome of `CmdExecutor.Execute`, one constructor per `return` site. -/
inductive ExecOutcome where
  | ok (out : String)
  | errEmptyCommand
  | errSplit (msg : String)
  | errNoCommand
  | errTimeout (timeout : Nat)
  | errExec (msg : String)
deriving DecidableEq

/-- The outcomes the spec's taxonomy files under `InvalidCommand`: a
malformed probe invocation, rejected before any process is spawned. -/
def ExecOutcome.isInvalidCommand : ExecOutcome → Bool
  | .errEmptyCommand => true
  | .errSplit _ => true
  | .errNoCommand => true
  | _ => false

/-- The effective timeout `Execute` applies: the configured one, or
`DefaultScriptTimeout` when unset (`timeout == 0`). -/
def CmdExecutor.effectiveTimeout (e : CmdExecutor) : Nat :=
  if e.timeout = 0 then DefaultScriptTimeout else e.timeout

/-- `CmdExecutor.Execute`: reject empty or untokenizable commands, apply
the (defaulted) timeout, and otherwise return the child's output. -/
def CmdExecutor.execute (e : CmdExecutor) (env : ExecEnv) (command : String) : ExecOutcome :=
  if command = "" then .errEmptyCommand
  else
    match env.split command with
    | .error msg => .errSplit msg
    | .ok args =>
      if args.length = 0 then .errNoCommand
      else
        if e.effectiveTimeout < env.elapsed args then .errTimeout e.effectiveTimeout
        else
          match env.run args with
          | .error msg => .errExec msg
          | .ok out => .ok out

/-! ### Spec-side notions -/

/-- The spec's *candidate tag set* (§3): every element has the shape
`"<prefix>-<value>"`, i.e. carries the managed prefix.  Every list
`parseScriptOutput` produces satisfies this
(`parseScriptOutput_isCandidate`). -/
def TagIt.IsCandidate (t : TagIt) (tags : List String) : Prop :=
  ∀ tag ∈ tags, goHasPrefix (t.tagPrefix ++ "-") tag = true

instance (t : TagIt) (tags : List String) : Decidable (t.IsCandidate tags) :=
  List.decidableBAll _ tags

/-! ### Supporting lemmas -/

theorem mem_goCompactAux (l : List String) (prev a : String) :
    a ∈ prev :: goCompactAux prev l ↔ a = prev ∨ a ∈ l := by
  induction l generalizing prev with
  | nil => simp [goCompactAux]
  | cons b l ih =>
    rw [goCompactAux]
    by_cases hb : b = prev
    · subst hb
      rw [if_pos rfl, ih]
      simp only [List.mem_cons]
      tauto
    · rw [if_neg hb, List.mem_cons, ih]
      simp only [List.mem_cons]

theorem mem_goCompact (l : List String) (a : String) :
    a ∈ goCompact l ↔ a ∈ l := by
  cases l with
  | nil => simp [goCompact]
  | cons b l => rw [goCompact, mem_goCompactAux]; simp

theorem sorted_goCompactAux (l : List String) (prev : String)
    (h : List.Sorted StrLe (prev :: l)) :
    List.Sorted StrLt (prev :: goCompactAux prev l) := by
  induction l generalizing prev with
  | nil => simp [goCompactAux]
  | cons b l ih =>
    rw [List.sorted_cons] at h
    obtain ⟨hle, hsorted⟩ := h
    by_cases hb : b = prev
    · subst hb
      rw [goCompactAux, if_pos rfl]
      exact ih b hsorted
    · rw [goCompactAux, if_neg hb]
      have htail : List.Sorted StrLt (b :: goCompactAux b l) := ih b hsorted
      rw [List.sorted_cons]
      refine ⟨?_, htail⟩
      intro c hc
      rcases (mem_goCompactAux l b c).1 hc with h | h
      · subst h
        exact ⟨hle c (List.mem_cons_self _ _), fun e => hb e.symm⟩
      · refine ⟨hle c (List.mem_cons_of_mem _ h), ?_⟩
        intro e
        subst e
        have h₁ : StrLe prev b := hle b (List.mem_cons_self _ _)
        have h₂ : StrLe b prev := (List.sorted_cons.1 hsorted).1 prev h
        exact hb (antisymm h₂ h₁)

theorem sorted_goCompact (l : List String) (h : List.Sorted StrLe l) :
    List.Sorted StrLt (goCompact l) := by
  cases l with
  | nil => simp [goCompact]
  | cons a l => exact sorted_goCompactAux l a h

/-- The canonical deduplicated sorted form: two lists with the same
members yield the same `goCompact ∘ goSort` image. -/
theorem goCompact_goSort_eq_of_mem_iff {l₁ l₂ : List String}
    (h : ∀ a, a ∈ l₁ ↔ a ∈ l₂) :
    goCompact (goSort l₁) = goCompact (goSort l₂) := by
  have hs₁ : List.Sorted StrLe (goSort l₁) := List.sorted_insertionSort StrLe l₁
  have hs₂ : List.Sorted StrLe (goSort l₂) := List.sorted_insertionSort StrLe l₂
  have hlt₁ := sorted_goCompact _ hs₁
  have hlt₂ := sorted_goCompact _ hs₂
  have hmem : ∀ a, a ∈ goCompact (goSort l₁) ↔ a ∈ goCompact (goSort l₂) := by
    intro a
    rw [mem_goCompact, mem_goCompact, goSort, goSort,
      List.mem_insertionSort, List.mem_insertionSort]
    exact h a
  have hperm : (goCompact (goSort l₁)).Perm (goCompact (goSort l₂)) :=
    (List.perm_ext_iff_of_nodup hlt₁.nodup hlt₂.nodup).2 hmem
  exact List.eq_of_perm_of_sorted hperm
    (hlt₁.imp (fun h => h.1)) (hlt₂.imp (fun h => h.1))

theorem nodup_goCompact_goSort (l : List String) :
    (goCompact (goSort l)).Nodup :=
  (sorted_goCompact _ (List.sorted_insertionSort StrLe l)).nodup

theorem mem_goCompact_goSort (l : List String) (a : String) :
    a ∈ goCompact (goSort l) ↔ a ∈ l := by
  rw [mem_goCompact, goSort, List.mem_insertionSort]

/-- `diffTags` is empty exactly when the two lists have the same
members. -/
theorem diffTags_eq_nil_iff (t : TagIt) (current update : List String) :
    t.diffTags current update = [] ↔ (∀ a, a ∈ current ↔ a ∈ update) := by
  rw [TagIt.diffTags, List.append_eq_nil, List.filter_eq_nil_iff, List.filter_eq_nil_iff]
  constructor
  · intro ⟨h₁, h₂⟩ a
    constructor
    · intro ha
      by_contra hb
      exact h₂ a (List.mem_dedup.2 ha) (by simpa using hb)
    · intro ha
      by_contra hb
      exact h₁ a (List.mem_dedup.2 ha) (by simpa using hb)
  · intro h
    refine ⟨fun a ha => ?_, fun a ha => ?_⟩
    · simp [(h a).2 (List.mem_dedup.1 ha)]
    · simp [(h a).1 (List.mem_dedup.1 ha)]

/-- `needsTag` in the no-difference case. -/
theorem needsTag_eq_noop (t : TagIt) (current update : List String)
    (h : ∀ a, a ∈ t.managedTags current ↔ a ∈ update) :
    t.needsTag current update = ([], false) := by
  have hdiff : t.diffTags (t.managedTags current) update = [] :=
    (diffTags_eq_nil_iff t (t.managedTags current) update).2 h
  rw [TagIt.needsTag]
  simp [hdiff]

/-- `needsTag` in the difference case. -/
theorem needsTag_eq_write (t : TagIt) (current update : List String)
    (h : ¬ ∀ a, a ∈ t.managedTags current ↔ a ∈ update) :
    t.needsTag current update =
      (goCompact (goSort (t.foreignTags current ++ update)), true) := by
  rw [TagIt.needsTag]
  have hne : t.diffTags (t.managedTags current) update ≠ [] := by
    intro he
    exact h ((diffTags_eq_nil_iff t (t.managedTags current) update).1 he)
  simp [List.length_eq_zero, hne]

/-- The two cases are exhaustive: `shouldTag = false` means set equality
of the managed part with the update. -/
theorem needsTag_false_iff (t : TagIt) (current update : List String) :
    (t.needsTag current update).2 = false ↔
      (∀ a, a ∈ t.managedTags current ↔ a ∈ update) := by
  constructor
  · intro h
    by_contra hc
    rw [needsTag_eq_write t current update hc] at h
    simp at h
  · intro h
    rw [needsTag_eq_noop t current update h]

/-- Every tag `parseScriptOutput` emits carries the managed prefix. -/
theorem goHasPrefix_append (p s : String) : goHasPrefix p (p ++ s) = true := by
  rw [goHasPrefix, List.isPrefixOf_iff_prefix, String.data_append]
  exact List.prefix_append _ _

theorem parseScriptOutput_isCandidate (t : TagIt) (output : String) :
    t.IsCandidate (t.parseScriptOutput output) := by
  intro tag htag
  rw [TagIt.parseScriptOutput] at htag
  rcases List.mem_map.1 htag with ⟨v, _, rfl⟩
  exact goHasPrefix_append _ _

/-- A managed-prefixed tag is never foreign. -/
theorem not_mem_foreignTags_of_hasPrefix (t : TagIt) {tags : List String} {a : String}
    (h : goHasPrefix (t.tagPrefix ++ "-") a = true) : a ∉ t.foreignTags tags := by
  intro hmem
  have := (List.mem_filter.1 hmem).2
  simp [h] at this

/-! ### The claims -/

/-- C1: for every current tag sequence and candidate tag list, `needsTag`
partitions `current` into managed tags (those starting with
`"<prefix>-"`) and foreign tags and compares the managed part with the
candidate as sets (`diffTags` computes their symmetric difference, and
that difference is empty exactly when the two agree as sets); if the
difference is empty it returns `([], false)`, and otherwise it returns
the deduplicated union of the foreign tags and the candidate together
with `shouldTag = true`. -/
theorem needsTag_symmetric_difference (t : TagIt) (current candidate : List String) :
    ((∀ a, a ∈ t.managedTags current ↔ a ∈ candidate) →
      t.needsTag current candidate = ([], false))
    ∧ (¬ (∀ a, a ∈ t.managedTags current ↔ a ∈ candidate) →
      (t.needsTag current candidate).2 = true
      ∧ (∀ a, a ∈ (t.needsTag current candidate).1 ↔
          a ∈ t.foreignTags current ∨ a ∈ candidate)
      ∧ (t.needsTag current candidate).1.Nodup) := by
  constructor
  · exact needsTag_eq_noop t current candidate
  · intro h
    rw [needsTag_eq_write t current candidate h]
    refine ⟨rfl, fun a => ?_, nodup_goCompact_goSort _⟩
    rw [mem_goCompact_goSort, List.mem_append]

/-- Witness for C1 at a concrete input: current `["tag-a", "web"]`,
candidate `["tag-b"]`, prefix `"tag"` — the managed part differs from the
candidate, so a write with the deduplicated union is due. -/
theorem needsTag_symmetric_difference_witness :
    ((TagIt.mk "s" "sc" "tag").needsTag ["tag-a", "web"] ["tag-b"]).2 = true
    ∧ (∀ a, a ∈ ((TagIt.mk "s" "sc" "tag").needsTag ["tag-a", "web"] ["tag-b"]).1 ↔
        a ∈ (TagIt.mk "s" "sc" "tag").foreignTags ["tag-a", "web"] ∨ a ∈ ["tag-b"])
    ∧ ((TagIt.mk "s" "sc" "tag").needsTag ["tag-a", "web"] ["tag-b"]).1.Nodup :=
  (needsTag_symmetric_difference (TagIt.mk "s" "sc" "tag") ["tag-a", "web"] ["tag-b"]).2
    (fun h => absurd ((h "tag-b").2 (by decide)) (by decide))

/-- C2: for any tags `T` and candidate list `C` (a candidate list in the
spec's sense: every element carries the managed prefix), if
`needsTag T C` asks for a write with result `R`, then `needsTag R C`
reports no write — the reconciliation is idempotent for a fixed
candidate. -/
theorem needsTag_idempotent (t : TagIt) (T C : List String) (hC : t.IsCandidate C)
    (hw : (t.needsTag T C).2 = true) :
    (t.needsTag (t.needsTag T C).1 C).2 = false := by
  have hcond : ¬ (∀ a, a ∈ t.managedTags T ↔ a ∈ C) := by
    intro h
    rw [needsTag_eq_noop t T C h] at hw
    simp at hw
  rw [needsTag_eq_write t T C hcond]
  apply (needsTag_false_iff t _ C).2
  intro a
  constructor
  · intro ha
    obtain ⟨hmem, hpfx⟩ := List.mem_filter.1 ha
    rcases (mem_goCompact_goSort _ a).1 hmem |> List.mem_append.1 with hf | hc
    · exact absurd hf (not_mem_foreignTags_of_hasPrefix t hpfx)
    · exact hc
  · intro ha
    refine List.mem_filter.2 ⟨?_, hC a ha⟩
    exact (mem_goCompact_goSort _ a).2 (List.mem_append.2 (Or.inr ha))

/-- Witness for C2: prefix `"p"`, tags `["web"]`, candidate `["p-a"]` —
the first call writes, the second reports no write. -/
theorem needsTag_idempotent_witness :
    (TagIt.mk "s" "sc" "p").IsCandidate ["p-a"]
    ∧ ((TagIt.mk "s" "sc" "p").needsTag ["web"] ["p-a"]).2 = true
    ∧ ((TagIt.mk "s" "sc" "p").needsTag
        (((TagIt.mk "s" "sc" "p").needsTag ["web"] ["p-a"]).1) ["p-a"]).2 = false :=
  ⟨by decide, by decide,
    needsTag_idempotent (TagIt.mk "s" "sc" "p") ["web"] ["p-a"] (by decide) (by decide)⟩

/-- C3: for all current tags and every candidate list in the spec's sense
(each element carries the managed prefix), whenever `needsTag` asks for a
write, the foreign tags of the returned list are exactly the foreign tags
of the input: a write neither adds nor removes a foreign tag. -/
theorem needsTag_preserves_foreign (t : TagIt) (current candidate : List String)
    (hC : t.IsCandidate candidate)
    (hw : (t.needsTag current candidate).2 = true) :
    ∀ a, a ∈ t.foreignTags (t.needsTag current candidate).1 ↔
      a ∈ t.foreignTags current := by
  have hcond : ¬ (∀ a, a ∈ t.managedTags current ↔ a ∈ candidate) := by
    intro h
    rw [needsTag_eq_noop t current candidate h] at hw
    simp at hw
  rw [needsTag_eq_write t current candidate hcond]
  intro a
  constructor
  · intro ha
    obtain ⟨hmem, hpfx⟩ := List.mem_filter.1 ha
    rcases (mem_goCompact_goSort _ a).1 hmem |> List.mem_append.1 with hf | hc
    · exact hf
    · exfalso
      have := hC a hc
      simp [this] at hpfx
  · intro ha
    refine List.mem_filter.2 ⟨?_, (List.mem_filter.1 ha).2⟩
    exact (mem_goCompact_goSort _ a).2 (List.mem_append.2 (Or.inl ha))

/-- Witness for C3: prefix `"tag"`, current `["db", "tag-a"]`, candidate
`["tag-b"]` — the write keeps exactly the foreign tag `"db"`. -/
theorem needsTag_preserves_foreign_witness :
    (TagIt.mk "s" "sc" "tag").IsCandidate ["tag-b"]
    ∧ ((TagIt.mk "s" "sc" "tag").needsTag ["db", "tag-a"] ["tag-b"]).2 = true
    ∧ (∀ a, a ∈ (TagIt.mk "s" "sc" "tag").foreignTags
          (((TagIt.mk "s" "sc" "tag").needsTag ["db", "tag-a"] ["tag-b"]).1) ↔
        a ∈ (TagIt.mk "s" "sc" "tag").foreignTags ["db", "tag-a"]) :=
  ⟨by decide, by decide,
    needsTag_preserves_foreign (TagIt.mk "s" "sc" "tag") ["db", "tag-a"] ["tag-b"]
      (by decide) (by decide)⟩

/-- C4, counterexample: a service whose only tag is the foreign `"beta"`
holds no managed tag for prefix `"tag"`, yet `CleanupTags` still calls
`ServiceRegister`: `needsTag` compares the managed part (empty) with the
cleaned foreign list (`["beta"]`), finds a difference, and writes. -/
theorem cleanupTags_write_condition_counterexample :
    (TagIt.mk "svc" "sc" "tag").managedTags ["beta"] = []
    ∧ ((TagIt.mk "svc" "sc" "tag").cleanupTags
        { serviceResp := Except.ok (some
            { id := "svc", service := "svc", tags := ["beta"], port := 0,
              address := "", kind := "", meta := [],
              weights := { passing := 0, warning := 0 } })
          execResult := Except.ok ""
          registerResult := fun _ => none }).registered ≠ none := by
  constructor
  · decide
  · intro h
    simp only [TagIt.cleanupTags, TagIt.getService, TagIt.updateConsulService] at h
    revert h
    decide

/-- C4 as amended: `CleanupTags` fetches the registration, partitions its
tags, and writes the foreign tags whenever the fetched tag list is
non-empty — even when it holds no managed tag; only a registration with
no tags at all escapes the `ServiceRegister` call. -/
theorem cleanupTags_writes_iff_tags_nonempty (t : TagIt) (env : ConsulEnv)
    (service : AgentService) (hs : env.serviceResp = Except.ok (some service)) :
    ((t.cleanupTags env).registered = none ↔ service.tags = [])
    ∧ (∀ reg, (t.cleanupTags env).registered = some reg →
        (∀ a, a ∈ reg.tags ↔ a ∈ t.foreignTags service.tags) ∧ reg.tags.Nodup) := by
  have hget : t.getService env = Except.ok service := by
    rw [TagIt.getService, hs]
  have hcond : (∀ a, a ∈ t.managedTags service.tags ↔ a ∈ t.foreignTags service.tags)
      ↔ service.tags = [] := by
    constructor
    · intro h
      rw [List.eq_nil_iff_forall_not_mem]
      intro a ha
      by_cases hp : goHasPrefix (t.tagPrefix ++ "-") a = true
      · have : a ∈ t.foreignTags service.tags :=
          (h a).1 (List.mem_filter.2 ⟨ha, hp⟩)
        exact absurd this (not_mem_foreignTags_of_hasPrefix t hp)
      · have hf : a ∈ t.foreignTags service.tags :=
          List.mem_filter.2 ⟨ha, by simp [hp]⟩
        have := (List.mem_filter.1 ((h a).2 hf)).2
        exact hp this
    · intro h
      simp [TagIt.managedTags, TagIt.foreignTags, h]
  rw [TagIt.cleanupTags, hget]
  by_cases hc : ∀ a, a ∈ t.managedTags service.tags ↔ a ∈ t.foreignTags service.tags
  · have hnil : service.tags = [] := hcond.1 hc
    have hnoop : t.needsTag service.tags (t.foreignTags service.tags) = ([], false) :=
      needsTag_eq_noop t _ _ hc
    simp only [TagIt.updateConsulService, TagIt.copyServiceToRegistration]
    rw [hnoop]
    simp [hnil]
  · have hwrite := needsTag_eq_write t service.tags (t.foreignTags service.tags) hc
    simp only [TagIt.updateConsulService, TagIt.copyServiceToRegistration]
    rw [hwrite]
    simp only [if_pos]
    constructor
    · constructor
      · intro h
        cases hreg : env.registerResult _ <;> rw [hreg] at h <;> simp at h
      · intro h
        exact absurd (hcond.2 h) hc
    · intro reg hr
      have hregeq : reg.tags = goCompact (goSort
          (t.foreignTags service.tags ++ t.foreignTags service.tags)) := by
        cases hreg : env.registerResult _ <;> rw [hreg] at hr <;>
          simp at hr <;> rw [← hr]
      rw [hregeq]
      refine ⟨fun a => ?_, nodup_goCompact_goSort _⟩
      rw [mem_goCompact_goSort, List.mem_append, or_self]

/-- Witness for the amended C4: a registration with managed tag
`"tag-a"` and foreign tag `"web"` gets a write carrying exactly the
foreign tag. -/
theorem cleanupTags_writes_iff_tags_nonempty_witness :
    (((TagIt.mk "svc" "sc" "tag").cleanupTags
        { serviceResp := Except.ok (some
            { id := "svc", service := "svc", tags := ["tag-a", "web"], port := 0,
              address := "", kind := "", meta := [],
              weights := { passing := 0, warning := 0 } })
          execResult := Except.ok ""
          registerResult := fun _ => none }).registered = none ↔
      (["tag-a", "web"] : List String) = []) :=
  (cleanupTags_writes_iff_tags_nonempty (TagIt.mk "svc" "sc" "tag")
    { serviceResp := Except.ok (some
        { id := "svc", service := "svc", tags := ["tag-a", "web"], port := 0,
          address := "", kind := "", meta := [],
          weights := { passing := 0, warning := 0 } })
      execResult := Except.ok ""
      registerResult := fun _ => none }
    { id := "svc", service := "svc", tags := ["tag-a", "web"], port := 0,
      address := "", kind := "", meta := [],
      weights := { passing := 0, warning := 0 } } rfl).1

/-- C5: a tag is managed iff it textually starts with the configured
prefix followed by a dash; a tag `"<prefix>x"` whose continuation does
not start with the dash is foreign; concretely, for prefix `"tag"` the
tags `["alpha-tag", "beta", "gamma"]` all partition as foreign (no
false-positive on `"alpha-tag"`). -/
theorem managed_iff_prefix_dash :
    (∀ (t : TagIt) (tags : List String) (tag : String),
        tag ∈ t.managedTags tags ↔
          tag ∈ tags ∧ goHasPrefix (t.tagPrefix ++ "-") tag = true)
    ∧ (∀ p x : String, goHasPrefix "-" x = false →
        goHasPrefix (p ++ "-") (p ++ x) = false)
    ∧ (TagIt.mk "s" "sc" "tag").managedTags ["alpha-tag", "beta", "gamma"] = []
    ∧ (TagIt.mk "s" "sc" "tag").foreignTags ["alpha-tag", "beta", "gamma"] =
        ["alpha-tag", "beta", "gamma"] := by
  refine ⟨fun t tags tag => List.mem_filter, fun p x h => ?_, by decide, by decide⟩
  cases hpx : goHasPrefix (p ++ "-") (p ++ x) with
  | false => rfl
  | true =>
    exfalso
    rw [goHasPrefix, List.isPrefixOf_iff_prefix, String.data_append,
      String.data_append, List.prefix_append_right_inj] at hpx
    have hx : goHasPrefix "-" x = true := by
      rw [goHasPrefix, List.isPrefixOf_iff_prefix]
      exact hpx
    rw [h] at hx
    exact Bool.false_ne_true hx

/-- Witness for C5: `"tagx"` lacks the dash after prefix `"tag"`, so it
is not managed. -/
theorem managed_iff_prefix_dash_witness :
    goHasPrefix "-" "x" = false ∧ goHasPrefix ("tag" ++ "-") ("tag" ++ "x") = false :=
  ⟨by decide, managed_iff_prefix_dash.2.1 "tag" "x" (by decide)⟩

/-- C6: `parseScriptOutput` splits the raw output on whitespace runs —
every token is non-empty and maps to `"<prefix>-<token>"` — so `"a b c"`
with prefix `"p"` yields exactly `["p-a", "p-b", "p-c"]`; and the
reconciliation outcome treats the candidate as a set: candidates with the
same members give identical `needsTag` results (duplicates trigger
nothing by themselves), and a written tag list never repeats a tag. -/
theorem parseScriptOutput_tokens :
    (TagIt.mk "s" "sc" "p").parseScriptOutput "a b c" = ["p-a", "p-b", "p-c"]
    ∧ (∀ (t : TagIt) (output : String) (tag : String),
        tag ∈ t.parseScriptOutput output →
          ∃ v, v ≠ "" ∧ tag = t.tagPrefix ++ "-" ++ v)
    ∧ (∀ (t : TagIt) (current u₁ u₂ : List String),
        (∀ a, a ∈ u₁ ↔ a ∈ u₂) → t.needsTag current u₁ = t.needsTag current u₂)
    ∧ (∀ (t : TagIt) (current update : List String),
        (t.needsTag current update).1.Nodup) := by
  refine ⟨by decide, ?_, ?_, ?_⟩
  · intro t output tag h
    rw [TagIt.parseScriptOutput] at h
    rcases List.mem_map.1 h with ⟨v, hv, rfl⟩
    refine ⟨v, ?_, rfl⟩
    rw [goFields] at hv
    rcases List.mem_map.1 hv with ⟨l, hl, rfl⟩
    have hlne : l ≠ [] := by
      have := (List.mem_filter.1 hl).2
      simpa using this
    intro he
    apply hlne
    have hd : (String.mk l).data = ("" : String).data := congrArg String.data he
    simpa using hd
  · intro t current u₁ u₂ h
    by_cases hc : ∀ a, a ∈ t.managedTags current ↔ a ∈ u₁
    · have hc₂ : ∀ a, a ∈ t.managedTags current ↔ a ∈ u₂ :=
        fun a => (hc a).trans (h a)
      rw [needsTag_eq_noop t current u₁ hc, needsTag_eq_noop t current u₂ hc₂]
    · have hc₂ : ¬ ∀ a, a ∈ t.managedTags current ↔ a ∈ u₂ :=
        fun hq => hc (fun a => (hq a).trans (h a).symm)
      rw [needsTag_eq_write t current u₁ hc, needsTag_eq_write t current u₂ hc₂]
      rw [Prod.mk.injEq]
      refine ⟨?_, rfl⟩
      apply goCompact_goSort_eq_of_mem_iff
      intro a
      rw [List.mem_append, List.mem_append]
      exact or_congr Iff.rfl (h a)
  · intro t current update
    by_cases hc : ∀ a, a ∈ t.managedTags current ↔ a ∈ update
    · rw [needsTag_eq_noop t current update hc]
      exact List.nodup_nil
    · rw [needsTag_eq_write t current update hc]
      exact nodup_goCompact_goSort _

/-- Witness for C6: a duplicated candidate `["p-a", "p-a"]` produces the
same reconciliation answer as `["p-a"]`. -/
theorem parseScriptOutput_tokens_witness :
    (TagIt.mk "s" "sc" "p").needsTag ["web"] ["p-a", "p-a"] =
      (TagIt.mk "s" "sc" "p").needsTag ["web"] ["p-a"] :=
  parseScriptOutput_tokens.2.2.1 (TagIt.mk "s" "sc" "p") ["web"] ["p-a", "p-a"] ["p-a"]
    (fun a => by simp [List.mem_cons])

/-- C7: `CmdExecutor.Execute` is bounded by a configurable timeout that
defaults to 30 seconds when unset; a command whose execution exceeds the
effective timeout fails with the timeout error and success never carries
output of a run that exceeded the bound; an empty command or a command
whose shell-word tokenization fails is rejected with an invalid-command
error — for every environment, i.e. without consulting the process. -/
theorem execute_bounded_and_validated (e : CmdExecutor) (env : ExecEnv) (command : String) :
    ((CmdExecutor.mk 0).effectiveTimeout = 30
      ∧ (e.timeout ≠ 0 → e.effectiveTimeout = e.timeout))
    ∧ (e.execute env "" = ExecOutcome.errEmptyCommand
      ∧ ExecOutcome.errEmptyCommand.isInvalidCommand = true)
    ∧ (∀ msg, command ≠ "" → env.split command = Except.error msg →
        e.execute env command = ExecOutcome.errSplit msg
        ∧ (ExecOutcome.errSplit msg).isInvalidCommand = true)
    ∧ (∀ args, command ≠ "" → env.split command = Except.ok args → args ≠ [] →
        e.effectiveTimeout < env.elapsed args →
        e.execute env command = ExecOutcome.errTimeout e.effectiveTimeout)
    ∧ (∀ out, e.execute env command = ExecOutcome.ok out →
        ∃ args, env.split command = Except.ok args ∧ args ≠ []
          ∧ env.elapsed args ≤ e.effectiveTimeout
          ∧ env.run args = Except.ok out) := by
  refine ⟨⟨by decide, fun h => by rw [CmdExecutor.effectiveTimeout, if_neg h]⟩,
    ⟨by rw [CmdExecutor.execute, if_pos rfl], rfl⟩, ?_, ?_, ?_⟩
  · intro msg hne hsplit
    refine ⟨?_, rfl⟩
    rw [CmdExecutor.execute, if_neg hne, hsplit]
  · intro args hne hsplit hargs htime
    have hlen : ¬ args.length = 0 := by
      simpa [List.length_eq_zero] using hargs
    simp only [CmdExecutor.execute, if_neg hne, hsplit, if_neg hlen, if_pos htime]
  · intro out h
    by_cases hne : command = ""
    · rw [CmdExecutor.execute, if_pos hne] at h
      exact absurd h (by simp)
    · cases hsplit : env.split command with
      | error msg =>
        simp only [CmdExecutor.execute, if_neg hne, hsplit] at h
        exact absurd h (by simp)
      | ok args =>
        simp only [CmdExecutor.execute, if_neg hne, hsplit] at h
        by_cases hlen : args.length = 0
        · rw [if_pos hlen] at h
          exact absurd h (by simp)
        · rw [if_neg hlen] at h
          by_cases htime : e.effectiveTimeout < env.elapsed args
          · rw [if_pos htime] at h
            exact absurd h (by simp)
          · rw [if_neg htime] at h
            cases hrun : env.run args with
            | error msg => rw [hrun] at h; exact absurd h (by simp)
            | ok out' =>
              rw [hrun] at h
              refine ⟨args, rfl, by simpa [List.length_eq_zero] using hlen,
                Nat.le_of_not_lt htime, ?_⟩
              rw [hrun]
              cases h
              rfl

/-- Witness for C7: with no configured timeout (default 30) a command
taking 31 time units fails with the timeout error. -/
theorem execute_bounded_and_validated_witness :
    (CmdExecutor.mk 0).execute
        { split := fun s => Except.ok [s], elapsed := fun _ => 31,
          run := fun _ => Except.ok "x" } "sleep 60" =
      ExecOutcome.errTimeout (CmdExecutor.mk 0).effectiveTimeout :=
  (execute_bounded_and_validated (CmdExecutor.mk 0)
      { split := fun s => Except.ok [s], elapsed := fun _ => 31,
        run := fun _ => Except.ok "x" } "sleep 60").2.2.2.1
    ["sleep 60"] (by decide) rfl (by decide) (by decide)

/-- C8: whenever a write occurs, the payload handed to `ServiceRegister`
carries every non-tag field of the fetched service unchanged — ID, name,
address, port, kind, metadata and both weights — and only `Tags` is
replaced, by the list `needsTag` computed. -/
theorem registration_frame (t : TagIt) (env : ConsulEnv) (service : AgentService)
    (newTags : List String) (reg : AgentServiceRegistration)
    (h : (t.updateConsulService env service newTags).registered = some reg) :
    reg.id = service.id ∧ reg.name = service.service ∧ reg.address = service.address
    ∧ reg.port = service.port ∧ reg.kind = service.kind ∧ reg.meta = service.meta
    ∧ reg.weights.passing = service.weights.passing
    ∧ reg.weights.warning = service.weights.warning
    ∧ reg.tags = (t.needsTag service.tags newTags).1 := by
  simp only [TagIt.updateConsulService] at h
  split at h
  · split at h <;>
    · simp only [Option.some.injEq] at h
      subst h
      exact ⟨rfl, rfl, rfl, rfl, rfl, rfl, rfl, rfl, rfl⟩
  · simp at h

/-- Witness for C8 at a concrete service: the write for candidate
`["tag-new"]` keeps every non-tag field and substitutes the computed tag
list. -/
theorem registration_frame_witness :
    (AgentServiceRegistration.mk "i" "n" ["tag-new", "web"] 8 "a" "k" [("k", "v")]
        (AgentWeights.mk 1 2)).id =
      (AgentService.mk "i" "n" ["tag-old", "web"] 8 "a" "k" [("k", "v")]
        (AgentWeights.mk 1 2)).id
    ∧ (AgentServiceRegistration.mk "i" "n" ["tag-new", "web"] 8 "a" "k" [("k", "v")]
        (AgentWeights.mk 1 2)).tags =
      ((TagIt.mk "i" "sc" "tag").needsTag ["tag-old", "web"] ["tag-new"]).1 := by
  have hframe := registration_frame (TagIt.mk "i" "sc" "tag")
    (ConsulEnv.mk
      (Except.ok (some (AgentService.mk "i" "n" ["tag-old", "web"] 8 "a" "k" [("k", "v")]
        (AgentWeights.mk 1 2))))
      (Except.ok "") (fun _ => none))
    (AgentService.mk "i" "n" ["tag-old", "web"] 8 "a" "k" [("k", "v")]
      (AgentWeights.mk 1 2))
    ["tag-new"]
    (AgentServiceRegistration.mk "i" "n" ["tag-new", "web"] 8 "a" "k" [("k", "v")]
      (AgentWeights.mk 1 2))
    (by decide)
  exact ⟨hframe.1, hframe.2.2.2.2.2.2.2.2⟩

/-- C9: in the continuous `Run` loop, every pass before the cancellation
signal executes and has its result reported in order — failed passes
included, so no error terminates the loop — and the loop returns exactly
at the first cancellation, executing nothing that follows it; with no
cancellation the loop processes every event. -/
theorem run_loop_error_resilient (pre post : List TickEvent)
    (h : TickEvent.cancel ∉ pre) :
    runLoop (pre ++ TickEvent.cancel :: post) = pre.map TickEvent.outcome
    ∧ runLoop pre = pre.map TickEvent.outcome := by
  induction pre with
  | nil => exact ⟨rfl, rfl⟩
  | cons e pre ih =>
    have he : e ≠ TickEvent.cancel := fun hc => h (hc ▸ List.mem_cons_self _ _)
    have hpre : TickEvent.cancel ∉ pre := fun hc => h (List.mem_cons_of_mem _ hc)
    obtain ⟨ih₁, ih₂⟩ := ih hpre
    cases e with
    | cancel => exact absurd rfl he
    | tick r =>
      constructor
      · rw [List.cons_append, runLoop, ih₁, List.map_cons, TickEvent.outcome]
      · rw [runLoop, ih₂, List.map_cons, TickEvent.outcome]

/-- Witness for C9: two ticks — the first failing, the second clean —
followed by a cancellation and a further tick: both passes run and are
reported, the post-cancellation tick is never executed. -/
theorem run_loop_error_resilient_witness :
    runLoop [TickEvent.tick (some (PassError.probe "boom")), TickEvent.tick none,
        TickEvent.cancel, TickEvent.tick none] =
      [some (PassError.probe "boom"), none] :=
  (run_loop_error_resilient
    [TickEvent.tick (some (PassError.probe "boom")), TickEvent.tick none]
    [TickEvent.tick none] (by decide)).1

/-- C10: a reconciliation pass is atomic with respect to errors — if the
fetch fails (transport error or missing service) the pass returns a
fetch error without calling `ServiceRegister`; if the fetch succeeds but
the probe fails, it returns a probe error without calling
`ServiceRegister`; and a write is attempted only when fetch and probe
both succeeded and `needsTag` reported a difference, with the tag list
`needsTag` computed. -/
theorem pass_atomic_on_error (t : TagIt) (env : ConsulEnv) :
    (∀ msg, env.serviceResp = Except.error msg →
      (t.updateServiceTags env).registered = none
      ∧ ∃ e, (t.updateServiceTags env).err = some (PassError.fetch e))
    ∧ (env.serviceResp = Except.ok none →
      (t.updateServiceTags env).registered = none
      ∧ ∃ e, (t.updateServiceTags env).err = some (PassError.fetch e))
    ∧ (∀ service msg, env.serviceResp = Except.ok (some service) →
      env.execResult = Except.error msg →
      (t.updateServiceTags env).registered = none
      ∧ ∃ e, (t.updateServiceTags env).err = some (PassError.probe e))
    ∧ (∀ reg, (t.updateServiceTags env).registered = some reg →
      ∃ service out, env.serviceResp = Except.ok (some service)
        ∧ env.execResult = Except.ok out
        ∧ (t.needsTag service.tags (t.parseScriptOutput out)).2 = true
        ∧ reg.tags = (t.needsTag service.tags (t.parseScriptOutput out)).1) := by
  refine ⟨?_, ?_, ?_, ?_⟩
  · intro msg hs
    simp only [TagIt.updateServiceTags, TagIt.getService, hs]
    exact ⟨trivial, _, rfl⟩
  · intro hs
    simp only [TagIt.updateServiceTags, TagIt.getService, hs]
    exact ⟨trivial, _, rfl⟩
  · intro service msg hs hx
    simp only [TagIt.updateServiceTags, TagIt.getService, hs,
      TagIt.generateNewTags, TagIt.runScript, hx]
    exact ⟨trivial, _, rfl⟩
  · intro reg hr
    cases hs : env.serviceResp with
    | error msg =>
      simp only [TagIt.updateServiceTags, TagIt.getService, hs] at hr
      exact absurd hr (by simp)
    | ok os =>
      cases os with
      | none =>
        simp only [TagIt.updateServiceTags, TagIt.getService, hs] at hr
        exact absurd hr (by simp)
      | some service =>
        cases hx : env.execResult with
        | error msg =>
          simp only [TagIt.updateServiceTags, TagIt.getService, hs,
            TagIt.generateNewTags, TagIt.runScript, hx] at hr
          exact absurd hr (by simp)
        | ok out =>
          refine ⟨service, out, rfl, rfl, ?_⟩
          simp only [TagIt.updateServiceTags, TagIt.getService, hs,
            TagIt.generateNewTags, TagIt.runScript, hx,
            TagIt.updateConsulService] at hr
          split at hr
          case isTrue hc =>
            refine ⟨hc, ?_⟩
            split at hr <;>
            · simp only [Option.some.injEq] at hr
              subst hr
              rfl
          case isFalse hc =>
            simp at hr

/-- Witness for C10: a pass whose fetch fails with a transport error
registers nothing and surfaces a fetch error. -/
theorem pass_atomic_on_error_witness :
    ((TagIt.mk "svc" "sc" "tag").updateServiceTags
        (ConsulEnv.mk (Except.error "consul down") (Except.ok "") (fun _ => none))).registered
      = none
    ∧ ∃ e, ((TagIt.mk "svc" "sc" "tag").updateServiceTags
        (ConsulEnv.mk (Except.error "consul down") (Except.ok "") (fun _ => none))).err
      = some (PassError.fetch e) :=
  (pass_atomic_on_error (TagIt.mk "svc" "sc" "tag")
    (ConsulEnv.mk (Except.error "consul down") (Except.ok "") (fun _ => none))).1
    "consul down" rfl

end Tagit
